import Mathlib

/-!
Verification development for `calx`'s scheduler script `src/calx/scripts/calx_run.py`.

The script's core is `run_pipeline(args, conf)`: a queue of DAG steps (a Python
dict `queued` mapping step name to its step id and remaining-dependency set),
a dict `running` of live containers, and a loop that

  * dispatches every queued step whose remaining-dependency set is empty
    (spawning a container via `run_step`) and removes it from the queue,
  * polls the running containers until at least one reports `is_finished()`,
    sleeping between sweeps (spinning forever if none ever does),
  * for each finished container, writes its `output()` to the file
    `$CALX_TMPDIR/<name>`, deletes it from `running`, and discards its name
    from every queued step's remaining-dependency set,
  * repeats while the queue is nonempty.

Shallow embedding conventions used below:

  * Python dicts are association lists in insertion order; dict deletion keeps
    the order of the remaining entries, and assigning to an existing key keeps
    its original position (`queueInsert`).
  * The Python `set` of remaining dependencies is modelled as the `List String`
    of its elements.  The code only ever checks the set for emptiness
    (`if not c["dependencies"]`) and discards elements (`.discard(pname)`,
    modelled as removing every copy), and for those two operations the list
    model is observationally identical to the set.
  * Container behaviour is external to this file's source (module
    `calx.scripts.containers`); it is abstracted by two oracles: `sched i r`
    tells which of the running steps `r` report finished on the first
    successful polling sweep of loop iteration `i` (the code sleeps and
    re-polls until that sweep, so an empty result means no runner ever
    finishes and the code loops forever), and `out n` is the captured output
    of step `n`'s container.
  * The loop is given explicit fuel; `none` means the fuel ran out while the
    code was still looping (in particular it is the value produced, for every
    fuel, by a state in which the Python code sleeps forever).
  * Writing the file `$CALX_TMPDIR/<name>` with mode "w" creates the file or
    silently truncates an existing one; `storeWrite` models this on the
    association list of (file name, contents) pairs.
-/

namespace Calx

/-- One entry of `conf["dag"]`: a dict with keys `name`, `step`,
`dependencies` (the declared dependency names). -/
structure DagEntry where
  name : String
  step : String
  dependencies : List String
deriving DecidableEq

/-- One value of the `queued` dict in `run_pipeline`: `{"step": c["step"],
"dependencies": set(c["dependencies"])}`, keyed by the step name. -/
structure QEntry where
  name : String
  step : String
  dependencies : List String
deriving DecidableEq

/-- The command-line arguments produced by `parse_arguments`:
`--all`, `--container` (default "local"), `--file` (default "pipeline.yaml"),
`--step` (default None), and the positional `workdir`. -/
structure Args where
  all : Bool
  container : String
  file : String
  step : Option String
  workdir : String
deriving DecidableEq

/-- The fields of one entry of `conf["steps"]` read by `run_step`:
`type`, optional `envfile`, optional `output`. -/
structure StepConf where
  type : String
  envfile : Option String
  output : Option String
deriving DecidableEq

/-- The arguments `run_step` passes to `spawn_container` (the container
backend itself lives in `calx.scripts.containers`, outside this source
file, so a spawned container is modelled by the record of that call). -/
structure SpawnedContainer where
  containerType : String
  step : String
  file : String
  workdir : String
  envlist : List (String × String)
  output : Option String
deriving DecidableEq

/-- The slice of the loaded configuration used by `run_step` and
`run_pipeline`: `conf["steps"]` and `conf["dag"]`. -/
structure Config where
  steps : List (String × StepConf)
  dag : List DagEntry

/-- Observable scheduling events of one `run_pipeline` execution: a batch of
steps dispatched together in one pass over the queue (a container spawned for
each name, in queue order), or the completion-processing of one finished step
(its output written to `$CALX_TMPDIR/<name>`, the step deleted from `running`,
and its name discarded from every queued step's remaining-dependency set). -/
inductive Event where
  | dispatch (names : List String)
  | complete (name : String)
deriving DecidableEq

/-- The mutable state of `run_pipeline`: the `queued` dict (in insertion
order), the keys of the `running` dict (in insertion order), the files written
to the scratch directory (name, contents), and the event trace. -/
structure SchedState where
  queued : List QEntry
  running : List String
  store : List (String × String)
  trace : List Event
deriving DecidableEq

/-- Python dict assignment `d[k] = v` on an association list: an existing key
keeps its original position and gets the new value, a new key is appended. -/
def queueInsert (q : List QEntry) (e : QEntry) : List QEntry :=
  if q.any (fun x => decide (x.name = e.name)) then
    q.map (fun x => if x.name = e.name then e else x)
  else
    q ++ [e]

/-- The queue-preparation loop of `run_pipeline`:
`for c in conf["dag"]: queued[c["name"]] = {"step": c["step"], "dependencies": set(c["dependencies"])}`. -/
def initQueued (dag : List DagEntry) : List QEntry :=
  dag.foldl
    (fun q c => queueInsert q { name := c.name, step := c.step, dependencies := c.dependencies })
    []

/-- The names collected by the first `to_pop` pass of the loop body: every
queued step whose remaining-dependency set is empty, in queue order. -/
def eligibleNames (queued : List QEntry) : List String :=
  (queued.filter (fun q => decide (q.dependencies = []))).map QEntry.name

/-- The dispatch pass of the loop body: spawn a container for every queued
step with no remaining dependencies (first component, in queue order — these
names are added to `running`), then delete those names from the queue
(`for qname in to_pop: del queued[qname]`, second component). -/
def dispatchPhase (queued : List QEntry) : List String × List QEntry :=
  (eligibleNames queued,
   queued.filter (fun q => decide (q.name ∉ eligibleNames queued)))

/-- Writing the file `$CALX_TMPDIR/<name>` with `open(path, "w")`: an existing
file of that name is silently truncated and rewritten in place, otherwise a
new file is created. -/
def storeWrite (store : List (String × String)) (name v : String) :
    List (String × String) :=
  if store.any (fun p => decide (p.1 = name)) then
    store.map (fun p => if p.1 = name then (name, v) else p)
  else
    store ++ [(name, v)]

/-- The dependency-release loop run after a step completes:
`for qname in queued: queued[qname]["dependencies"].discard(pname)`. -/
def releaseDeps (queued : List QEntry) (p : String) : List QEntry :=
  queued.map (fun q => { q with dependencies := q.dependencies.filter (fun d => decide (d ≠ p)) })

/-- The completion-processing of one finished step `p` (the body of
`for pname in to_pop:` after the poll): write the container's output to
`$CALX_TMPDIR/<p>`, delete `p` from `running`, and discard `p` from every
queued step's remaining-dependency set.  (The deletion of a `LocalContainer`'s
own temporary artifact touches only the container backend's file, not the
scratch store, and is not observable here.) -/
def processOne (out : String → String) (st : SchedState) (p : String) : SchedState :=
  { queued := releaseDeps st.queued p
    running := st.running.erase p
    store := storeWrite st.store p (out p)
    trace := st.trace ++ [Event.complete p] }

/-- The finished steps found by the first polling sweep (of loop iteration
`i`) on which at least one running container reports `is_finished()`, in
`running`-dict order.  An empty result models that no running container ever
finishes, in which case the code sleeps and re-polls forever. -/
def pollFinished (sched : Nat → List String → String → Bool) (i : Nat)
    (running : List String) : List String :=
  running.filter (sched i running)

/-- The `while len(queued) > 0` loop of `run_pipeline`, with fuel: each unit
of fuel is one loop iteration (one dispatch pass followed by one successful
poll).  `none` means the fuel was exhausted while the Python code was still
looping — in particular a poll on which no running container ever reports
finished (the code's `while True: ...; time.sleep(0.5)`) yields `none` for
every fuel. -/
def runLoop (sched : Nat → List String → String → Bool) (out : String → String) :
    Nat → Nat → SchedState → Option SchedState
  | 0, _, _ => none
  | fuel + 1, i, st =>
    if st.queued = [] then
      some st
    else
      let elig := (dispatchPhase st.queued).1
      let st1 : SchedState :=
        { queued := (dispatchPhase st.queued).2
          running := st.running ++ elig
          store := st.store
          trace := st.trace ++ [Event.dispatch elig] }
      let fin := pollFinished sched i st1.running
      if fin = [] then none
      else runLoop sched out fuel (i + 1) (fin.foldl (processOne out) st1)

/-- The state at entry to the `while` loop of `run_pipeline`: the prepared
queue, no running containers, an empty scratch directory, no events. -/
def initState (dag : List DagEntry) : SchedState :=
  { queued := initQueued dag, running := [], store := [], trace := [] }

/-- `run_pipeline(args, conf)`: prepare the queue from `conf["dag"]` and run
the scheduling loop.  The container behaviour is abstracted by the `sched`
and `out` oracles; the returned state exposes the observable effects. -/
def run_pipeline (sched : Nat → List String → String → Bool) (out : String → String)
    (fuel : Nat) (conf : Config) : Option SchedState :=
  runLoop sched out fuel 0 (initState conf.dag)

/-- Python's `str.lower()`: lowercase every character (written on the
character list so that it evaluates inside the kernel; it agrees with
`String.toLower`). -/
def pyLower (s : String) : String :=
  ⟨s.data.map Char.toLower⟩

/-- `run_step(step, args, conf)`: look up the step's configuration
(`conf["steps"][step]`, `none` models the `KeyError` on a missing key),
compute `container_type = args.container if step_type != "docker" else
"local"` with `step_type = step_conf["type"].lower()`, and spawn the
container.  `read_environ` lives in `calx.utils`, outside this source file,
and is passed in abstractly. -/
def run_step (readEnv : Option String → String → List (String × String))
    (step : String) (args : Args) (conf : Config) : Option SpawnedContainer :=
  match conf.steps.lookup step with
  | none => none
  | some stepConf =>
    some { containerType := if pyLower stepConf.type ≠ "docker" then args.container else "local"
           step := step
           file := args.file
           workdir := args.workdir
           envlist := readEnv stepConf.envfile args.workdir
           output := stepConf.output }

/-- What the entry point `run(args, conf)` does, observably: run the whole
pipeline, run one step and block on `container.wait()`, or nothing. -/
inductive RunAction where
  | ranPipeline
  | ranSingle (step : String) (waited : Bool)
  | noop
deriving DecidableEq

/-- `run(args, conf)`: `if args.all:` run the pipeline; `elif args.step:`
(Python truthiness: `None` and the empty string are falsy) spawn that single
step and block until its container completes; else do nothing. -/
def run (args : Args) : RunAction :=
  if args.all then
    RunAction.ranPipeline
  else
    match args.step with
    | some s => if s ≠ "" then RunAction.ranSingle s true else RunAction.noop
    | none => RunAction.noop

/-- Errors that `check_pipeline_configs`, `build` or `run` may raise inside
`main`'s `with TemporaryDirectory(...)` block (all three are external
collaborators; only the propagation through the block matters here). -/
inductive CalxError where
  | configError
  | buildError
  | runError
deriving DecidableEq

/-- A flat view of the filesystem: existing directories and files (by path). -/
structure Fs where
  dirs : List String
  files : List String
deriving DecidableEq

/-- Whether path `p` is a file inside directory `tmp` (written on the
character lists so that it evaluates inside the kernel). -/
def underDir (tmp p : String) : Bool :=
  (tmp ++ "/").data.isPrefixOf p.data

/-- Removal of the temporary directory and everything inside it, as performed
by `TemporaryDirectory.__exit__`. -/
def tempDirCleanup (tmp : String) (fs : Fs) : Fs :=
  { dirs := fs.dirs.filter (fun d => decide (d ≠ tmp))
    files := fs.files.filter (fun p => !underDir tmp p) }

/-- Python's `with TemporaryDirectory(prefix="calx") as tmpdir:` block: the
directory `tmp` is created, the body runs (returning an error to model a
raised exception, together with the filesystem as of the raise), and the
context manager removes the directory and its contents on both the normal
and the exceptional exit, re-raising any exception afterwards. -/
def withTempDirectory (tmp : String) (body : Fs → Option CalxError × Fs)
    (fs : Fs) : Option CalxError × Fs :=
  let fs1 : Fs := { fs with dirs := fs.dirs ++ [tmp] }
  let r := body fs1
  (r.1, tempDirCleanup tmp r.2)

/-- `main()` from the `with` statement on: the scratch directory (whose path
is exported as `CALX_TMPDIR`) is created, and `check_pipeline_configs(conf)`,
`build(args, conf)` and `run(args, conf)` execute inside the block (abstracted
as `checkBuildRun`, which may write per-step output files under the directory
and may raise at any point). -/
def main (tmp : String) (checkBuildRun : Fs → Option CalxError × Fs)
    (fs : Fs) : Option CalxError × Fs :=
  withTempDirectory tmp checkBuildRun fs

/-- The names dispatched over a trace, in dispatch order (concatenation of
the dispatch batches). -/
def dispatchedList (tr : List Event) : List String :=
  tr.foldr
    (fun e acc =>
      match e with
      | Event.dispatch l => l ++ acc
      | Event.complete _ => acc)
    []

/-- The names whose completion has been processed, in processing order. -/
def completedList (tr : List Event) : List String :=
  tr.foldr
    (fun e acc =>
      match e with
      | Event.complete p => p :: acc
      | Event.dispatch _ => acc)
    []

/-- The declared dependency names of step `n` in the DAG (of the first entry
named `n`; empty when there is none). -/
def dagDeps (dag : List DagEntry) (n : String) : List String :=
  match dag.find? (fun e => decide (e.name = n)) with
  | some e => e.dependencies
  | none => []

/-- `ord` lists the DAG's step names in an order compatible with the declared
dependencies: every dependency of a step comes strictly before the step. -/
def IsTopoOrder (dag : List DagEntry) (ord : List String) : Prop :=
  ord.Perm (dag.map DagEntry.name) ∧
  ∀ e ∈ dag, ∀ d ∈ e.dependencies, ord.indexOf d < ord.indexOf e.name

/-- The declared dependency graph is acyclic: some topological order of its
step names exists. -/
def Acyclic (dag : List DagEntry) : Prop :=
  ∃ ord, IsTopoOrder dag ord

/-- Causal ordering of a trace with respect to a DAG: whenever a step is
dispatched, every one of its declared dependencies has had its completion
processed at a strictly earlier trace position. -/
def CausalOk (dag : List DagEntry) (tr : List Event) : Prop :=
  ∀ (j : Nat) (l : List String), tr[j]? = some (Event.dispatch l) →
    ∀ b ∈ l, ∀ a ∈ dagDeps dag b,
      ∃ i : Nat, i < j ∧ tr[i]? = some (Event.complete a)

end Calx

namespace Calx

/-! Concrete oracles and inputs reused by witnesses and examples. -/

/-- A schedule on which every running container reports finished on the first
polling sweep of every iteration. -/
def schedT : Nat → List String → String → Bool := fun _ _ _ => true

/-- A concrete output oracle: each step's captured output is its own name. -/
def outId : String → String := fun n => n

/-- A two-step cyclic DAG (a configuration bug that escaped validation). -/
def dagCyc : List DagEntry := [⟨"A", "A", ["B"]⟩, ⟨"B", "B", ["A"]⟩]

/-- The spec's three-step example DAG `{A: deps=[]}, {B: deps=[]}, {C: deps=[A,B]}`. -/
def dag3 : List DagEntry := [⟨"A", "A", []⟩, ⟨"B", "B", []⟩, ⟨"C", "C", ["A", "B"]⟩]

/-- A two-step chain `{A: deps=[]}, {B: deps=[A]}`. -/
def dag2 : List DagEntry := [⟨"A", "A", []⟩, ⟨"B", "B", ["A"]⟩]

/-- The spec's best-effort example DAG `{A: deps=[]}, {B: deps=[A]}, {C: deps=[]}`
(where A is meant to fail and C to succeed). -/
def dagF : List DagEntry := [⟨"A", "A", []⟩, ⟨"B", "B", ["A"]⟩, ⟨"C", "C", []⟩]

/-! ### C4 — deadlock handling -/

/-- Counterexample to C4: on the cyclic DAG the scheduler reaches the deadlock
state immediately (queue nonempty, nothing eligible, nothing running), and
after 50 loop iterations `run_pipeline` is still spinning in its polling
sleep; no error of any kind is surfaced (the code has no `DeadlockError`). -/
theorem run_pipeline_deadlock_no_error :
    run_pipeline schedT outId 50 ⟨[], dagCyc⟩ = none := by
  decide

/-- C4, amended: whenever the scheduler reaches a state whose queued set is
nonempty, in which no queued step has an empty remaining-dependency set and
no run is active, it loops and sleeps forever (for every fuel bound the loop
is still running) instead of surfacing an explicit error. -/
theorem runLoop_deadlock_spins (sched : Nat → List String → String → Bool)
    (out : String → String) (fuel i : Nat) (st : SchedState)
    (hq : st.queued ≠ []) (hdep : ∀ q ∈ st.queued, q.dependencies ≠ [])
    (hr : st.running = []) :
    runLoop sched out fuel i st = none := by
  cases fuel with
  | zero => rfl
  | succ fuel =>
    have helig : eligibleNames st.queued = [] := by
      unfold eligibleNames
      have : st.queued.filter (fun q => decide (q.dependencies = [])) = [] := by
        rw [List.filter_eq_nil_iff]
        intro q hqmem
        simpa using hdep q hqmem
      rw [this, List.map_nil]
    simp only [runLoop, dispatchPhase]
    rw [if_neg hq]
    simp [helig, hr, pollFinished]

/-- Witness for the amended C4 at the concrete cyclic DAG. -/
theorem runLoop_deadlock_spins_witness :
    runLoop schedT outId 7 0 (initState dagCyc) = none := by
  exact runLoop_deadlock_spins schedT outId 7 0 (initState dagCyc)
    (by decide) (by decide) (by decide)

/-! ### C5 — output-store write semantics -/

/-- Counterexample to C5: writing a step output for a name that already has a
stored output succeeds and silently replaces the entry — there is no
`DuplicateWrite` failure (`open(path, "w")` truncates). -/
theorem storeWrite_duplicate_overwrites :
    storeWrite [("A", "old")] "A" "new" = [("A", "new")] := by
  decide

/-- C5, amended: the store's write operation never fails; writing under a name
that already has a stored output silently replaces that entry (the new value
is stored, no copy of the old value survives under that name), and entries
under other names are untouched. -/
theorem storeWrite_overwrite_semantics (store : List (String × String)) (name v : String) :
    (name, v) ∈ storeWrite store name v ∧
    (∀ w, (name, w) ∈ storeWrite store name v → w = v) ∧
    (∀ p ∈ storeWrite store name v, p.1 ≠ name → p ∈ store) := by
  unfold storeWrite
  by_cases h : store.any (fun p => decide (p.1 = name)) = true
  · rw [if_pos h]
    obtain ⟨p0, hp0mem, hp0⟩ := List.any_eq_true.mp h
    have hp0' : p0.1 = name := of_decide_eq_true hp0
    refine ⟨List.mem_map.mpr ⟨p0, hp0mem, by rw [if_pos hp0']⟩, ?_, ?_⟩
    · intro w hw
      obtain ⟨q, hq, hfq⟩ := List.mem_map.mp hw
      by_cases hq1 : q.1 = name
      · rw [if_pos hq1] at hfq
        injection hfq with h1 h2
        exact h2.symm
      · rw [if_neg hq1] at hfq
        exact absurd (congrArg Prod.fst hfq) hq1
    · intro p hp hpn
      obtain ⟨q, hq, hfq⟩ := List.mem_map.mp hp
      by_cases hq1 : q.1 = name
      · rw [if_pos hq1] at hfq
        exact absurd (congrArg Prod.fst hfq.symm) hpn
      · rw [if_neg hq1] at hfq
        exact hfq ▸ hq
  · rw [if_neg h]
    have hno : ∀ p ∈ store, p.1 ≠ name := by
      intro p hp hpe
      exact h (List.any_eq_true.mpr ⟨p, hp, by simp [hpe]⟩)
    refine ⟨List.mem_append.mpr (Or.inr (List.mem_singleton.mpr rfl)), ?_, ?_⟩
    · intro w hw
      rcases List.mem_append.mp hw with hin | hin
      · exact absurd rfl (hno _ hin)
      · exact (Prod.ext_iff.mp (List.mem_singleton.mp hin)).2
    · intro p hp hpn
      rcases List.mem_append.mp hp with hin | hin
      · exact hin
      · exact absurd (congrArg Prod.fst (List.mem_singleton.mp hin)) hpn

/-- Witness for the amended C5 at a concrete two-entry store. -/
theorem storeWrite_overwrite_semantics_witness :
    ("A", "new") ∈ storeWrite [("A", "old"), ("B", "b")] "A" "new" ∧
    "new" = "new" ∧
    ("B", "b") ∈ [("A", "old"), ("B", "b")] := by
  refine ⟨(storeWrite_overwrite_semantics [("A", "old"), ("B", "b")] "A" "new").1,
    (storeWrite_overwrite_semantics [("A", "old"), ("B", "b")] "A" "new").2.1 "new" ?_,
    (storeWrite_overwrite_semantics [("A", "old"), ("B", "b")] "A" "new").2.2 ("B", "b") ?_ ?_⟩
  · decide
  · decide
  · decide

/-! ### C6 — dependency release is idempotent -/

/-- C6: releasing a completed step's name from every queued step's
remaining-dependency set twice yields exactly the same queue state as
releasing it once (`set.discard` is idempotent). -/
theorem releaseDeps_idempotent (queued : List QEntry) (p : String) :
    releaseDeps (releaseDeps queued p) p = releaseDeps queued p := by
  unfold releaseDeps
  rw [List.map_map]
  apply List.map_congr_left
  intro q _
  simp only [Function.comp]
  congr 1
  rw [List.filter_filter]
  exact List.filter_congr (fun d _ => by by_cases hd : d = p <;> simp [hd])

/-! ### C7 — scratch directory teardown -/

/-- C7: the per-run scratch directory (the `TemporaryDirectory` exported as
`CALX_TMPDIR`) and every per-step output file inside it are gone from the
filesystem when `main`'s `with` block exits — the cleanup runs on the success
path and on every failure path (`checkBuildRun` covers
`check_pipeline_configs`, `build` and `run`, raising or not). -/
theorem main_removes_scratch (tmp : String) (body : Fs → Option CalxError × Fs) (fs : Fs) :
    tmp ∉ (main tmp body fs).2.dirs ∧
    ∀ p, underDir tmp p = true → p ∉ (main tmp body fs).2.files := by
  constructor
  · intro hmem
    simp only [main, withTempDirectory, tempDirCleanup, List.mem_filter,
      decide_eq_true_eq] at hmem
    exact hmem.2 rfl
  · intro p hp hmem
    simp only [main, withTempDirectory, tempDirCleanup, List.mem_filter] at hmem
    rw [hp] at hmem
    simpa using hmem.2

/-- Witness for C7: a body that writes a step-output file into the scratch
directory and then raises; after `main` returns, neither the directory nor
the file exists. -/
theorem main_removes_scratch_witness :
    "/tmp/calx123" ∉
      (main "/tmp/calx123"
        (fun fs => (some CalxError.runError,
          { fs with files := fs.files ++ ["/tmp/calx123/stepA"] }))
        ⟨["/"], []⟩).2.dirs ∧
    "/tmp/calx123/stepA" ∉
      (main "/tmp/calx123"
        (fun fs => (some CalxError.runError,
          { fs with files := fs.files ++ ["/tmp/calx123/stepA"] }))
        ⟨["/"], []⟩).2.files := by
  refine ⟨(main_removes_scratch "/tmp/calx123" _ _).1,
    (main_removes_scratch "/tmp/calx123" _ _).2 "/tmp/calx123/stepA" ?_⟩
  decide

/-! ### C9 — container-type selection in `run_step` -/

/-- C9: the container spawned by `run_step` uses the caller-supplied
`args.container`, except that a step whose configured `type`, lowercased,
equals "docker" is forced onto the "local" container type. -/
theorem run_step_container_type (readEnv : Option String → String → List (String × String))
    (args : Args) (conf : Config) (step : String) (stepConf : StepConf)
    (c : SpawnedContainer)
    (hs : conf.steps.lookup step = some stepConf)
    (hc : run_step readEnv step args conf = some c) :
    c.containerType = if pyLower stepConf.type = "docker" then "local" else args.container := by
  unfold run_step at hc
  rw [hs] at hc
  injection hc with hc'
  rw [← hc']
  by_cases h : pyLower stepConf.type = "docker" <;> simp [h]

/-- Witness for C9: a step configured with type "Docker" is spawned on the
"local" container type even though the caller asked for "podman". -/
theorem run_step_container_type_witness :
    (({ containerType := "local", step := "train", file := "pipeline.yaml",
        workdir := "wd", envlist := [], output := none } : SpawnedContainer)).containerType =
      if pyLower "Docker" = "docker" then "local" else "podman" := by
  exact run_step_container_type (fun _ _ => [])
    ⟨false, "podman", "pipeline.yaml", none, "wd"⟩
    ⟨[("train", ⟨"Docker", none, none⟩)], []⟩ "train" ⟨"Docker", none, none⟩
    { containerType := "local", step := "train", file := "pipeline.yaml",
      workdir := "wd", envlist := [], output := none }
    (by decide) (by decide)

/-! ### C10 — the `run` entry point -/

/-- Counterexample to C10: with `--all` unset and `--step` set to the empty
string, `args.step` is set but Python-falsy, so `run` executes nothing at all
instead of running that single step. -/
theorem run_empty_step_noop :
    run ⟨false, "local", "pipeline.yaml", some "", "wd"⟩ = RunAction.noop ∧
    run ⟨false, "local", "pipeline.yaml", some "", "wd"⟩ ≠ RunAction.ranSingle "" true := by
  decide

/-- C10, amended: when `args.all` is set the full pipeline is executed and
`args.step` is ignored; when `args.all` is unset and `args.step` is set to a
non-empty string, exactly that single step is run, blocking until its
container completes; when neither flag is set — or `args.step` is set to the
empty string, which is Python-falsy — `run` executes no step at all. -/
theorem run_dispatch_amended (args : Args) :
    (args.all = true → run args = RunAction.ranPipeline) ∧
    (args.all = false → ∀ s, args.step = some s → s ≠ "" →
      run args = RunAction.ranSingle s true) ∧
    (args.all = false → (args.step = none ∨ args.step = some "") →
      run args = RunAction.noop) := by
  refine ⟨fun h => by simp [run, h], fun h s hs hne => by simp [run, h, hs, hne], ?_⟩
  intro h hs
  rcases hs with hs | hs <;> simp [run, h, hs]

/-- Witness for the amended C10 at concrete argument records. -/
theorem run_dispatch_amended_witness :
    run ⟨true, "local", "pipeline.yaml", some "x", "wd"⟩ = RunAction.ranPipeline ∧
    run ⟨false, "local", "pipeline.yaml", some "train", "wd"⟩ = RunAction.ranSingle "train" true ∧
    run ⟨false, "local", "pipeline.yaml", none, "wd"⟩ = RunAction.noop := by
  refine ⟨(run_dispatch_amended _).1 rfl,
    (run_dispatch_amended _).2.1 rfl "train" rfl (by decide),
    (run_dispatch_amended _).2.2 rfl (Or.inl rfl)⟩

end Calx

namespace Calx

/-! ### Basic facts about traces, the queue, and the dependency view -/

theorem completedList_nil : completedList [] = [] := rfl

theorem completedList_cons_dispatch (l : List String) (tr : List Event) :
    completedList (Event.dispatch l :: tr) = completedList tr := rfl

theorem completedList_cons_complete (p : String) (tr : List Event) :
    completedList (Event.complete p :: tr) = p :: completedList tr := rfl

theorem dispatchedList_nil : dispatchedList [] = [] := rfl

theorem dispatchedList_cons_dispatch (l : List String) (tr : List Event) :
    dispatchedList (Event.dispatch l :: tr) = l ++ dispatchedList tr := rfl

theorem dispatchedList_cons_complete (p : String) (tr : List Event) :
    dispatchedList (Event.complete p :: tr) = dispatchedList tr := rfl

theorem completedList_append (tr tr' : List Event) :
    completedList (tr ++ tr') = completedList tr ++ completedList tr' := by
  induction tr with
  | nil => rfl
  | cons e t ih =>
    cases e with
    | dispatch l =>
      simpa [completedList_cons_dispatch] using ih
    | complete p =>
      simp [completedList_cons_complete, ih]

theorem dispatchedList_append (tr tr' : List Event) :
    dispatchedList (tr ++ tr') = dispatchedList tr ++ dispatchedList tr' := by
  induction tr with
  | nil => rfl
  | cons e t ih =>
    cases e with
    | dispatch l =>
      simp [dispatchedList_cons_dispatch, ih]
    | complete p =>
      simpa [dispatchedList_cons_complete] using ih

theorem exists_index_of_mem_completedList (tr : List Event) (a : String)
    (h : a ∈ completedList tr) :
    ∃ i : Nat, i < tr.length ∧ tr[i]? = some (Event.complete a) := by
  induction tr with
  | nil => simp [completedList_nil] at h
  | cons e t ih =>
    cases e with
    | dispatch l =>
      rw [completedList_cons_dispatch] at h
      obtain ⟨i, hi, hig⟩ := ih h
      exact ⟨i + 1, by simpa using hi, by simpa using hig⟩
    | complete p =>
      rw [completedList_cons_complete] at h
      rcases List.mem_cons.mp h with h | h
      · exact ⟨0, by simp, by simp [h]⟩
      · obtain ⟨i, hi, hig⟩ := ih h
        exact ⟨i + 1, by simpa using hi, by simpa using hig⟩

theorem dagDeps_of_mem {dag : List DagEntry} (hn : (dag.map DagEntry.name).Nodup)
    {e : DagEntry} (he : e ∈ dag) : dagDeps dag e.name = e.dependencies := by
  unfold dagDeps
  induction dag with
  | nil => cases he
  | cons d t ih =>
    rw [List.map_cons, List.nodup_cons] at hn
    rcases List.mem_cons.mp he with rfl | het
    · rw [List.find?_cons_of_pos _ (by simp)]
    · have hd : ¬ (decide (d.name = e.name) = true) := by
        intro hde
        exact hn.1 (of_decide_eq_true hde ▸ List.mem_map_of_mem DagEntry.name het)
      have hfind : List.find? (fun x => decide (x.name = e.name)) (d :: t)
          = List.find? (fun x => decide (x.name = e.name)) t :=
        List.find?_cons_of_neg t hd
      rw [hfind]
      exact ih hn.2 het

theorem foldl_queueInsert_eq (dag : List DagEntry) :
    ∀ acc : List QEntry,
      (acc.map QEntry.name ++ dag.map DagEntry.name).Nodup →
      dag.foldl
          (fun q c => queueInsert q { name := c.name, step := c.step, dependencies := c.dependencies })
          acc
        = acc ++ dag.map (fun c => { name := c.name, step := c.step, dependencies := c.dependencies }) := by
  induction dag with
  | nil =>
    intro acc _
    simp
  | cons c t ih =>
    intro acc h
    rw [List.foldl_cons]
    have hdisj := (List.nodup_append.mp h).2.2
    have hnotin : ¬ acc.any (fun x => decide (x.name = c.name)) = true := by
      intro hany
      obtain ⟨x, hx, hxe⟩ := List.any_eq_true.mp hany
      exact hdisj (of_decide_eq_true hxe ▸ List.mem_map_of_mem QEntry.name hx) (by simp)
    have hq : queueInsert acc { name := c.name, step := c.step, dependencies := c.dependencies }
        = acc ++ [{ name := c.name, step := c.step, dependencies := c.dependencies }] := by
      unfold queueInsert
      rw [if_neg hnotin]
    have hn' : ((acc ++ [{ name := c.name, step := c.step, dependencies := c.dependencies }] :
        List QEntry).map QEntry.name ++ t.map DagEntry.name).Nodup := by
      have heq : (acc ++ [{ name := c.name, step := c.step, dependencies := c.dependencies }] :
          List QEntry).map QEntry.name ++ t.map DagEntry.name
          = acc.map QEntry.name ++ c.name :: t.map DagEntry.name := by
        simp
      rw [heq]
      simpa using h
    rw [hq, ih _ hn']
    simp

theorem initQueued_eq_map {dag : List DagEntry} (hn : (dag.map DagEntry.name).Nodup) :
    initQueued dag
      = dag.map (fun c => { name := c.name, step := c.step, dependencies := c.dependencies }) := by
  have := foldl_queueInsert_eq dag [] (by simpa using hn)
  simpa [initQueued] using this

theorem exists_min_key {α : Type} (f : α → Nat) (l : List α) (hne : l ≠ []) :
    ∃ a ∈ l, ∀ b ∈ l, f a ≤ f b := by
  induction l with
  | nil => exact absurd rfl hne
  | cons a t ih =>
    cases t with
    | nil =>
      refine ⟨a, by simp, ?_⟩
      intro b hb
      rw [List.mem_singleton.mp hb]
    | cons c t' =>
      obtain ⟨m, hm, hmin⟩ := ih (by simp)
      by_cases hle : f a ≤ f m
      · refine ⟨a, List.mem_cons_self a _, ?_⟩
        intro b hb
        rcases List.mem_cons.mp hb with rfl | hb
        · exact le_rfl
        · exact le_trans hle (hmin b hb)
      · refine ⟨m, List.mem_cons_of_mem _ hm, ?_⟩
        intro b hb
        rcases List.mem_cons.mp hb with rfl | hb
        · exact le_of_not_le hle
        · exact hmin b hb

end Calx

namespace Calx

/-- The loop invariant of `run_pipeline` relating a scheduler state to the
DAG: the queued names, running names and processed completions partition the
DAG's step names; every queued entry's remaining-dependency set is its
declared dependency set minus the processed completions; the dispatched names
are exactly the running and completed ones; the trace is causally ordered;
and the scratch store holds exactly the completed steps' files. -/
structure Inv (dag : List DagEntry) (st : SchedState) : Prop where
  partition : ((st.queued.map QEntry.name) ++ st.running ++ completedList st.trace).Perm
    (dag.map DagEntry.name)
  rems : ∀ q ∈ st.queued,
    q.dependencies
      = (dagDeps dag q.name).filter (fun d => decide (d ∉ completedList st.trace))
  disp : (dispatchedList st.trace).Perm (st.running ++ completedList st.trace)
  causal : CausalOk dag st.trace
  storeKeys : st.store.map Prod.fst = completedList st.trace

theorem Inv.all_nodup {dag : List DagEntry} {st : SchedState}
    (hn : (dag.map DagEntry.name).Nodup) (hI : Inv dag st) :
    ((st.queued.map QEntry.name) ++ st.running ++ completedList st.trace).Nodup :=
  hI.partition.symm.nodup hn

theorem Inv.queued_names_nodup {dag : List DagEntry} {st : SchedState}
    (hn : (dag.map DagEntry.name).Nodup) (hI : Inv dag st) :
    (st.queued.map QEntry.name).Nodup :=
  (List.nodup_append.mp (List.nodup_append.mp (hI.all_nodup hn)).1).1

theorem Inv.running_nodup {dag : List DagEntry} {st : SchedState}
    (hn : (dag.map DagEntry.name).Nodup) (hI : Inv dag st) :
    st.running.Nodup :=
  (List.nodup_append.mp (List.nodup_append.mp (hI.all_nodup hn)).1).2.1

theorem Inv.running_completed_disjoint {dag : List DagEntry} {st : SchedState}
    (hn : (dag.map DagEntry.name).Nodup) (hI : Inv dag st) :
    st.running.Disjoint (completedList st.trace) :=
  fun _ haR haC =>
    (List.nodup_append.mp (hI.all_nodup hn)).2.2 (List.mem_append_right _ haR) haC

theorem Inv.partition_assoc {dag : List DagEntry} {st : SchedState} (hI : Inv dag st) :
    ((st.queued.map QEntry.name) ++ (st.running ++ completedList st.trace)).Perm
      (dag.map DagEntry.name) := by
  rw [← List.append_assoc]
  exact hI.partition

theorem mem_eligibleNames {queued : List QEntry} {n : String} :
    n ∈ eligibleNames queued ↔ ∃ q ∈ queued, q.dependencies = [] ∧ q.name = n := by
  unfold eligibleNames
  simp only [List.mem_map, List.mem_filter, decide_eq_true_eq]
  constructor
  · rintro ⟨q, ⟨hq, hdep⟩, hname⟩
    exact ⟨q, hq, hdep, hname⟩
  · rintro ⟨q, hq, hdep, hname⟩
    exact ⟨q, ⟨hq, hdep⟩, hname⟩

theorem rest_eq_filter {queued : List QEntry} (hn : (queued.map QEntry.name).Nodup) :
    (dispatchPhase queued).2 = queued.filter (fun q => !decide (q.dependencies = [])) := by
  unfold dispatchPhase
  apply List.filter_congr
  intro q hq
  by_cases hdep : q.dependencies = []
  · have hmem : q.name ∈ eligibleNames queued := mem_eligibleNames.mpr ⟨q, hq, hdep, rfl⟩
    simp [hdep, hmem]
  · have hmem : q.name ∉ eligibleNames queued := by
      intro hmem
      obtain ⟨q', hq', hdep', hname'⟩ := mem_eligibleNames.mp hmem
      have hqq : q' = q := List.inj_on_of_nodup_map hn hq' hq hname'
      exact hdep (hqq ▸ hdep')
    simp [hdep, hmem]

theorem names_perm {queued : List QEntry} (hn : (queued.map QEntry.name).Nodup) :
    (eligibleNames queued ++ (dispatchPhase queued).2.map QEntry.name).Perm
      (queued.map QEntry.name) := by
  rw [rest_eq_filter hn]
  have h := (List.filter_append_perm (fun q => decide (q.dependencies = [])) queued).map QEntry.name
  simpa [eligibleNames, List.map_append] using h

theorem releaseDeps_map_name (queued : List QEntry) (p : String) :
    (releaseDeps queued p).map QEntry.name = queued.map QEntry.name := by
  unfold releaseDeps
  rw [List.map_map]
  exact List.map_congr_left (fun q _ => rfl)

theorem dispatch_inv {dag : List DagEntry} {st : SchedState}
    (hn : (dag.map DagEntry.name).Nodup) (hI : Inv dag st) :
    Inv dag
      { queued := (dispatchPhase st.queued).2
        running := st.running ++ (dispatchPhase st.queued).1
        store := st.store
        trace := st.trace ++ [Event.dispatch (dispatchPhase st.queued).1] } := by
  have hqn := hI.queued_names_nodup hn
  have hC : completedList (st.trace ++ [Event.dispatch (dispatchPhase st.queued).1])
      = completedList st.trace := by
    rw [completedList_append, completedList_cons_dispatch, completedList_nil, List.append_nil]
  have hD : dispatchedList (st.trace ++ [Event.dispatch (dispatchPhase st.queued).1])
      = dispatchedList st.trace ++ (dispatchPhase st.queued).1 := by
    rw [dispatchedList_append, dispatchedList_cons_dispatch, dispatchedList_nil, List.append_nil]
  refine ⟨?_, ?_, ?_, ?_, ?_⟩
  · rw [hC]
    have h1 : ((dispatchPhase st.queued).2.map QEntry.name
          ++ (st.running ++ (dispatchPhase st.queued).1) ++ completedList st.trace).Perm
        (((dispatchPhase st.queued).1 ++ (dispatchPhase st.queued).2.map QEntry.name)
          ++ (st.running ++ completedList st.trace)) := by
      rw [← Multiset.coe_eq_coe]
      simp only [← Multiset.coe_add]
      abel
    exact h1.trans (((names_perm hqn).append_right (st.running ++ completedList st.trace)).trans
      hI.partition_assoc)
  · intro q hq
    rw [hC]
    exact hI.rems q (List.mem_of_mem_filter hq)
  · rw [hC, hD]
    have h1 : (dispatchedList st.trace ++ (dispatchPhase st.queued).1).Perm
        ((st.running ++ completedList st.trace) ++ (dispatchPhase st.queued).1) :=
      hI.disp.append_right _
    refine h1.trans ?_
    rw [← Multiset.coe_eq_coe]
    simp only [← Multiset.coe_add]
    abel
  · intro j l hj b hb a ha
    by_cases hjlt : j < st.trace.length
    · rw [List.getElem?_append_left hjlt] at hj
      obtain ⟨i, hij, hig⟩ := hI.causal j l hj b hb a ha
      exact ⟨i, hij, by rw [List.getElem?_append_left (lt_trans hij hjlt)]; exact hig⟩
    · by_cases hjeq : j = st.trace.length
      · subst hjeq
        rw [List.getElem?_concat_length] at hj
        have hl : l = (dispatchPhase st.queued).1 := by
          cases hj
          rfl
        subst hl
        obtain ⟨q, hq, hdep, hname⟩ := mem_eligibleNames.mp hb
        have hrem := hI.rems q hq
        rw [hdep] at hrem
        have hsub : ∀ x ∈ dagDeps dag q.name, x ∈ completedList st.trace := by
          intro x hx
          by_contra hxc
          have : x ∈ (dagDeps dag q.name).filter
              (fun d => decide (d ∉ completedList st.trace)) := by
            rw [List.mem_filter]
            exact ⟨hx, by simpa using hxc⟩
          rw [← hrem] at this
          cases this
        have haC : a ∈ completedList st.trace := hsub a (hname ▸ ha)
        obtain ⟨i, hi, hig⟩ := exists_index_of_mem_completedList st.trace a haC
        exact ⟨i, hi, by rw [List.getElem?_append_left hi]; exact hig⟩
      · have hge : (st.trace ++ [Event.dispatch (dispatchPhase st.queued).1]).length ≤ j := by
          simp only [List.length_append, List.length_cons, List.length_nil]
          omega
        rw [List.getElem?_eq_none hge] at hj
        cases hj
  · rw [hC]
    exact hI.storeKeys

end Calx

namespace Calx

theorem processOne_inv {dag : List DagEntry} {st : SchedState} {p : String}
    (out : String → String)
    (hn : (dag.map DagEntry.name).Nodup) (hI : Inv dag st) (hp : p ∈ st.running) :
    Inv dag (processOne out st p) := by
  have hC : completedList (st.trace ++ [Event.complete p])
      = completedList st.trace ++ [p] := by
    rw [completedList_append, completedList_cons_complete, completedList_nil]
  have hD : dispatchedList (st.trace ++ [Event.complete p])
      = dispatchedList st.trace := by
    rw [dispatchedList_append, dispatchedList_cons_complete, dispatchedList_nil, List.append_nil]
  have hper : st.running.Perm ([p] ++ st.running.erase p) := List.perm_cons_erase hp
  refine ⟨?_, ?_, ?_, ?_, ?_⟩
  · show ((releaseDeps st.queued p).map QEntry.name ++ st.running.erase p
        ++ completedList (st.trace ++ [Event.complete p])).Perm (dag.map DagEntry.name)
    rw [hC, releaseDeps_map_name]
    have h1 : (st.queued.map QEntry.name ++ st.running.erase p
          ++ (completedList st.trace ++ [p])).Perm
        (st.queued.map QEntry.name ++ (([p] ++ st.running.erase p) ++ completedList st.trace)) := by
      rw [← Multiset.coe_eq_coe]
      simp only [← Multiset.coe_add]
      abel
    refine h1.trans ?_
    exact ((hper.symm.append_right (completedList st.trace)).append_left
      (st.queued.map QEntry.name)).trans hI.partition_assoc
  · intro q' hq'
    obtain ⟨q, hq, hfq⟩ := List.mem_map.mp hq'
    rw [← hfq]
    show q.dependencies.filter (fun d => decide (d ≠ p))
        = (dagDeps dag q.name).filter
            (fun d => decide (d ∉ completedList (st.trace ++ [Event.complete p])))
    rw [hC, hI.rems q hq, List.filter_filter]
    apply List.filter_congr
    intro d _
    by_cases h1 : d = p <;> by_cases h2 : d ∈ completedList st.trace <;>
      simp [h1, h2]
  · show (dispatchedList (st.trace ++ [Event.complete p])).Perm
      (st.running.erase p ++ completedList (st.trace ++ [Event.complete p]))
    rw [hC, hD]
    refine hI.disp.trans ?_
    refine (hper.append_right (completedList st.trace)).trans ?_
    rw [← Multiset.coe_eq_coe]
    simp only [← Multiset.coe_add]
    abel
  · intro j l hj b hb a ha
    simp only [processOne] at hj ⊢
    by_cases hjlt : j < st.trace.length
    · rw [List.getElem?_append_left hjlt] at hj
      obtain ⟨i, hij, hig⟩ := hI.causal j l hj b hb a ha
      exact ⟨i, hij, by rw [List.getElem?_append_left (lt_trans hij hjlt)]; exact hig⟩
    · by_cases hjeq : j = st.trace.length
      · subst hjeq
        rw [List.getElem?_concat_length] at hj
        cases hj
      · have hge : (st.trace ++ [Event.complete p]).length ≤ j := by
          simp only [List.length_append, List.length_cons, List.length_nil]
          omega
        rw [List.getElem?_eq_none hge] at hj
        cases hj
  · show (storeWrite st.store p (out p)).map Prod.fst
      = completedList (st.trace ++ [Event.complete p])
    rw [hC]
    have hnotany : ¬ st.store.any (fun q => decide (q.1 = p)) = true := by
      intro hany
      obtain ⟨x, hx, hxe⟩ := List.any_eq_true.mp hany
      have hmem : p ∈ st.store.map Prod.fst :=
        of_decide_eq_true hxe ▸ List.mem_map_of_mem Prod.fst hx
      rw [hI.storeKeys] at hmem
      exact hI.running_completed_disjoint hn hp hmem
    unfold storeWrite
    rw [if_neg hnotany, List.map_append, hI.storeKeys]
    rfl

theorem processMany_trace (out : String → String) (fin : List String) :
    ∀ st : SchedState,
      (fin.foldl (processOne out) st).trace = st.trace ++ fin.map Event.complete := by
  induction fin with
  | nil => intro st; simp
  | cons p t ih =>
    intro st
    rw [List.foldl_cons, ih]
    simp [processOne]

theorem processMany_queued_names (out : String → String) (fin : List String) :
    ∀ st : SchedState,
      ((fin.foldl (processOne out) st).queued).map QEntry.name
        = st.queued.map QEntry.name := by
  induction fin with
  | nil => intro st; rfl
  | cons p t ih =>
    intro st
    rw [List.foldl_cons, ih]
    simp [processOne, releaseDeps_map_name]

theorem processMany_inv {dag : List DagEntry} (out : String → String)
    (hn : (dag.map DagEntry.name).Nodup) (fin : List String) :
    ∀ st : SchedState, Inv dag st → fin.Nodup → (∀ p ∈ fin, p ∈ st.running) →
      Inv dag (fin.foldl (processOne out) st) ∧
      (fin.foldl (processOne out) st).running.length + fin.length = st.running.length := by
  induction fin with
  | nil =>
    intro st hI _ _
    exact ⟨hI, by simp⟩
  | cons p t ih =>
    intro st hI hnd hmem
    have hp : p ∈ st.running := hmem p (List.mem_cons_self p t)
    have hI1 := processOne_inv out hn hI hp
    rw [List.foldl_cons]
    have hmem' : ∀ q ∈ t, q ∈ (processOne out st p).running := by
      intro q hq
      have hqR : q ∈ st.running := hmem q (List.mem_cons_of_mem _ hq)
      have hqp : q ≠ p := by
        rintro rfl
        exact (List.nodup_cons.mp hnd).1 hq
      show q ∈ st.running.erase p
      exact (List.mem_erase_of_ne hqp).mpr hqR
    obtain ⟨hI2, hlen⟩ := ih (processOne out st p) hI1 (List.nodup_cons.mp hnd).2 hmem'
    refine ⟨hI2, ?_⟩
    have hlen1 : (processOne out st p).running.length + 1 = st.running.length := by
      show (st.running.erase p).length + 1 = st.running.length
      rw [List.length_erase_of_mem hp]
      have hpos : 0 < st.running.length := List.length_pos_of_mem hp
      omega
    simp only [List.length_cons]
    omega

end Calx

namespace Calx

theorem pollFinished_subset (sched : Nat → List String → String → Bool) (i : Nat)
    (r : List String) : ∀ p ∈ pollFinished sched i r, p ∈ r :=
  fun _ hp => List.mem_of_mem_filter hp

theorem pollFinished_nodup (sched : Nat → List String → String → Bool) (i : Nat)
    {r : List String} (h : r.Nodup) : (pollFinished sched i r).Nodup :=
  h.filter _

theorem init_inv {dag : List DagEntry} (hn : (dag.map DagEntry.name).Nodup) :
    Inv dag (initState dag) := by
  have hq := initQueued_eq_map hn
  have hmapname : (dag.map
      (fun c => { name := c.name, step := c.step, dependencies := c.dependencies : QEntry })).map
        QEntry.name = dag.map DagEntry.name := by
    rw [List.map_map]
    exact List.map_congr_left (fun a _ => rfl)
  unfold initState
  refine ⟨?_, ?_, ?_, ?_, ?_⟩
  · show ((initQueued dag).map QEntry.name ++ [] ++ completedList []).Perm (dag.map DagEntry.name)
    rw [completedList_nil, hq, hmapname, List.append_nil, List.append_nil]
  · intro q hqm
    show q.dependencies
        = (dagDeps dag q.name).filter (fun d => decide (d ∉ completedList []))
    rw [hq] at hqm
    obtain ⟨c, hc, hfc⟩ := List.mem_map.mp hqm
    rw [← hfc]
    show c.dependencies = (dagDeps dag c.name).filter (fun d => decide (d ∉ completedList []))
    rw [dagDeps_of_mem hn hc, completedList_nil]
    simp
  · show (dispatchedList []).Perm ([] ++ completedList [])
    rw [dispatchedList_nil, completedList_nil]
    exact List.Perm.refl _
  · intro j l hj b hb a ha
    rw [List.getElem?_eq_none (by simp)] at hj
    cases hj
  · rfl

theorem eligible_ne_nil_of_running_nil {dag : List DagEntry} {st : SchedState}
    {ord : List String}
    (hn : (dag.map DagEntry.name).Nodup)
    (hdeps : ∀ e ∈ dag, ∀ d ∈ e.dependencies, d ∈ dag.map DagEntry.name)
    (hord : IsTopoOrder dag ord) (hI : Inv dag st)
    (hq : st.queued ≠ []) (hR : st.running = []) :
    eligibleNames st.queued ≠ [] := by
  intro helig
  have hall : ∀ q ∈ st.queued, q.dependencies ≠ [] := by
    intro q hq' hdep
    have : q.name ∈ eligibleNames st.queued := mem_eligibleNames.mpr ⟨q, hq', hdep, rfl⟩
    rw [helig] at this
    cases this
  obtain ⟨q0, hq0, hmin⟩ := exists_min_key (fun q => ord.indexOf q.name) st.queued hq
  obtain ⟨d, hd⟩ : ∃ d, d ∈ q0.dependencies := by
    cases hcase : q0.dependencies with
    | nil => exact absurd hcase (hall q0 hq0)
    | cons a t => exact ⟨a, hcase ▸ List.mem_cons_self a t⟩
  rw [hI.rems q0 hq0] at hd
  have hd1 : d ∈ dagDeps dag q0.name := List.mem_of_mem_filter hd
  have hd2 : d ∉ completedList st.trace := by
    have := (List.mem_filter.mp hd).2
    simpa using this
  have hq0N : q0.name ∈ dag.map DagEntry.name :=
    hI.partition.mem_iff.mp
      (List.mem_append_left _ (List.mem_append_left _ (List.mem_map_of_mem QEntry.name hq0)))
  obtain ⟨e0, he0, he0n⟩ := List.mem_map.mp hq0N
  have hdagdeps : dagDeps dag q0.name = e0.dependencies := by
    rw [← he0n]
    exact dagDeps_of_mem hn he0
  have hdN : d ∈ dag.map DagEntry.name := hdeps e0 he0 d (hdagdeps ▸ hd1)
  have hdX : d ∈ st.queued.map QEntry.name ++ st.running ++ completedList st.trace :=
    hI.partition.mem_iff.mpr hdN
  have hdqn : d ∈ st.queued.map QEntry.name := by
    rw [hR] at hdX
    rcases List.mem_append.mp hdX with h | h
    · rcases List.mem_append.mp h with h' | h'
      · exact h'
      · cases h'
    · exact absurd h hd2
  obtain ⟨q1, hq1, hq1n⟩ := List.mem_map.mp hdqn
  have htopo := hord.2 e0 he0 d (hdagdeps ▸ hd1)
  rw [he0n] at htopo
  have hmin1 := hmin q1 hq1
  rw [hq1n] at hmin1
  omega

theorem runLoop_some_inv {dag : List DagEntry}
    {sched : Nat → List String → String → Bool} {out : String → String}
    (hn : (dag.map DagEntry.name).Nodup) :
    ∀ (fuel i : Nat) (st final : SchedState), Inv dag st →
      runLoop sched out fuel i st = some final → Inv dag final := by
  intro fuel
  induction fuel with
  | zero =>
    intro i st final _ h
    cases h
  | succ fuel ih =>
    intro i st final hI hrun
    simp only [runLoop] at hrun
    by_cases hq : st.queued = []
    · rw [if_pos hq] at hrun
      injection hrun with h
      exact h ▸ hI
    · rw [if_neg hq] at hrun
      by_cases hfin : pollFinished sched i (st.running ++ (dispatchPhase st.queued).1) = []
      · rw [if_pos hfin] at hrun
        cases hrun
      · rw [if_neg hfin] at hrun
        have hI1 := dispatch_inv hn hI
        have hnodupR : (st.running ++ (dispatchPhase st.queued).1).Nodup :=
          hI1.running_nodup hn
        obtain ⟨hI2, _⟩ := processMany_inv out hn
          (pollFinished sched i (st.running ++ (dispatchPhase st.queued).1)) _ hI1
          (pollFinished_nodup sched i hnodupR)
          (pollFinished_subset sched i _)
        exact ih _ _ _ hI2 hrun

theorem runLoop_trace_extend {sched : Nat → List String → String → Bool}
    {out : String → String} :
    ∀ (fuel i : Nat) (st final : SchedState),
      runLoop sched out fuel i st = some final →
      ∃ ext, final.trace = st.trace ++ ext := by
  intro fuel
  induction fuel with
  | zero =>
    intro i st final h
    cases h
  | succ fuel ih =>
    intro i st final hrun
    simp only [runLoop] at hrun
    by_cases hq : st.queued = []
    · rw [if_pos hq] at hrun
      injection hrun with h
      exact ⟨[], by rw [← h, List.append_nil]⟩
    · rw [if_neg hq] at hrun
      by_cases hfin : pollFinished sched i (st.running ++ (dispatchPhase st.queued).1) = []
      · rw [if_pos hfin] at hrun
        cases hrun
      · rw [if_neg hfin] at hrun
        obtain ⟨ext, hext⟩ := ih _ _ _ hrun
        rw [processMany_trace] at hext
        refine ⟨[Event.dispatch (dispatchPhase st.queued).1]
          ++ (pollFinished sched i (st.running ++ (dispatchPhase st.queued).1)).map Event.complete
          ++ ext, ?_⟩
        rw [hext]
        show (st.trace ++ [Event.dispatch (dispatchPhase st.queued).1])
            ++ _ ++ ext = _
        rw [List.append_assoc, List.append_assoc, List.append_assoc]

theorem runLoop_term {dag : List DagEntry}
    {sched : Nat → List String → String → Bool} {out : String → String}
    {ord : List String}
    (hn : (dag.map DagEntry.name).Nodup)
    (hdeps : ∀ e ∈ dag, ∀ d ∈ e.dependencies, d ∈ dag.map DagEntry.name)
    (hord : IsTopoOrder dag ord)
    (hsched : ∀ (i : Nat) (r : List String), r ≠ [] → pollFinished sched i r ≠ []) :
    ∀ (fuel i : Nat) (st : SchedState), Inv dag st →
      st.queued.length + st.running.length < fuel →
      ∃ final, runLoop sched out fuel i st = some final ∧ Inv dag final
        ∧ final.queued = [] := by
  intro fuel
  induction fuel with
  | zero =>
    intro i st _ h
    omega
  | succ fuel ih =>
    intro i st hI hm
    by_cases hq : st.queued = []
    · refine ⟨st, ?_, hI, hq⟩
      simp only [runLoop]
      rw [if_pos hq]
    · have hI1 := dispatch_inv hn hI
      have hrun1 : st.running ++ (dispatchPhase st.queued).1 ≠ [] := by
        cases hR : st.running with
        | cons a t => simp
        | nil =>
          have helig : eligibleNames st.queued ≠ [] :=
            eligible_ne_nil_of_running_nil hn hdeps hord hI hq hR
          simpa [dispatchPhase] using helig
      have hfin : pollFinished sched i (st.running ++ (dispatchPhase st.queued).1) ≠ [] :=
        hsched i _ hrun1
      have hnodupR : (st.running ++ (dispatchPhase st.queued).1).Nodup :=
        hI1.running_nodup hn
      obtain ⟨hI2, hlen2⟩ := processMany_inv out hn
        (pollFinished sched i (st.running ++ (dispatchPhase st.queued).1)) _ hI1
        (pollFinished_nodup sched i hnodupR)
        (pollFinished_subset sched i _)
      have hlenq2 : ((pollFinished sched i (st.running ++ (dispatchPhase st.queued).1)).foldl
          (processOne out)
          { queued := (dispatchPhase st.queued).2
            running := st.running ++ (dispatchPhase st.queued).1
            store := st.store
            trace := st.trace ++ [Event.dispatch (dispatchPhase st.queued).1] }).queued.length
          = (dispatchPhase st.queued).2.length := by
        have h := congrArg List.length (processMany_queued_names out
          (pollFinished sched i (st.running ++ (dispatchPhase st.queued).1))
          { queued := (dispatchPhase st.queued).2
            running := st.running ++ (dispatchPhase st.queued).1
            store := st.store
            trace := st.trace ++ [Event.dispatch (dispatchPhase st.queued).1] })
        rw [List.length_map, List.length_map] at h
        exact h
      have hlensplit : (dispatchPhase st.queued).1.length + (dispatchPhase st.queued).2.length
          = st.queued.length := by
        have h := (names_perm (hI.queued_names_nodup hn)).length_eq
        rw [List.length_append, List.length_map, List.length_map] at h
        exact h
      have hfinpos : 0 < (pollFinished sched i (st.running ++ (dispatchPhase st.queued).1)).length :=
        List.length_pos.mpr hfin
      have hm2 : ((pollFinished sched i (st.running ++ (dispatchPhase st.queued).1)).foldl
          (processOne out)
          { queued := (dispatchPhase st.queued).2
            running := st.running ++ (dispatchPhase st.queued).1
            store := st.store
            trace := st.trace ++ [Event.dispatch (dispatchPhase st.queued).1] }).queued.length
          + ((pollFinished sched i (st.running ++ (dispatchPhase st.queued).1)).foldl
          (processOne out)
          { queued := (dispatchPhase st.queued).2
            running := st.running ++ (dispatchPhase st.queued).1
            store := st.store
            trace := st.trace ++ [Event.dispatch (dispatchPhase st.queued).1] }).running.length
          < fuel := by
        have hlenR : (st.running ++ (dispatchPhase st.queued).1).length
            = st.running.length + (dispatchPhase st.queued).1.length := by
          rw [List.length_append]
        have hproj :
            ({ queued := (dispatchPhase st.queued).2
               running := st.running ++ (dispatchPhase st.queued).1
               store := st.store
               trace := st.trace ++ [Event.dispatch (dispatchPhase st.queued).1] } :
                 SchedState).running
              = st.running ++ (dispatchPhase st.queued).1 := rfl
        rw [hproj] at hlen2
        omega
      obtain ⟨final, hfr, hIf, hqf⟩ := ih (i + 1) _ hI2 hm2
      refine ⟨final, ?_, hIf, hqf⟩
      simp only [runLoop]
      rw [if_neg hq, if_neg hfin]
      exact hfr

end Calx

namespace Calx

/-- Unfolding of one loop iteration on a nonempty queue: dispatch the
eligible steps, then branch on whether the successful polling sweep found
any finished container. -/
theorem runLoop_step_ne (sched : Nat → List String → String → Bool) (out : String → String)
    (fuel i : Nat) (st : SchedState) (hq : st.queued ≠ []) :
    runLoop sched out (fuel + 1) i st =
      if pollFinished sched i (st.running ++ (dispatchPhase st.queued).1) = [] then none
      else runLoop sched out fuel (i + 1)
        ((pollFinished sched i (st.running ++ (dispatchPhase st.queued).1)).foldl
          (processOne out)
          { queued := (dispatchPhase st.queued).2
            running := st.running ++ (dispatchPhase st.queued).1
            store := st.store
            trace := st.trace ++ [Event.dispatch (dispatchPhase st.queued).1] }) := by
  simp only [runLoop]
  rw [if_neg hq]

/-- The configuration holding the spec's three-step example DAG. -/
def conf3 : Config := ⟨[], dag3⟩

theorem run_pipeline_completes (sched : Nat → List String → String → Bool)
    (out : String → String) (conf : Config) (ord : List String)
    (hn : (conf.dag.map DagEntry.name).Nodup)
    (hdeps : ∀ e ∈ conf.dag, ∀ d ∈ e.dependencies, d ∈ conf.dag.map DagEntry.name)
    (hord : IsTopoOrder conf.dag ord)
    (hsched : ∀ (i : Nat) (r : List String), r ≠ [] → pollFinished sched i r ≠ []) :
    ∃ final, run_pipeline sched out (conf.dag.length + 1) conf = some final
      ∧ Inv conf.dag final ∧ final.queued = []
      ∧ (dispatchedList final.trace).Perm (conf.dag.map DagEntry.name) := by
  have hI0 := init_inv hn
  have hm0 : (initState conf.dag).queued.length + (initState conf.dag).running.length
      < conf.dag.length + 1 := by
    show (initQueued conf.dag).length + ([] : List String).length < conf.dag.length + 1
    rw [initQueued_eq_map hn, List.length_map]
    simp
  obtain ⟨final, hrun, hIf, hqf⟩ :=
    runLoop_term hn hdeps hord hsched (conf.dag.length + 1) 0 _ hI0 hm0
  have hpart := hIf.partition
  rw [hqf] at hpart
  simp only [List.map_nil, List.nil_append] at hpart
  exact ⟨final, hrun, hIf, hqf, hIf.disp.trans hpart⟩

/-! ### C1 — termination and exactly-once dispatch -/

/-- C1: for every dependency graph with distinct step names whose declared
dependency names all refer to steps of the DAG and which is acyclic, and
under the assumption that every spawned runner eventually reports finished
(every successful polling sweep on a nonempty running set returns at least
one finished step), `run_pipeline` terminates — within one loop iteration
per step — and every step of the DAG is dispatched exactly once: the
dispatched names are a permutation of the DAG's names, so each name is
spawned once, never zero times and never twice. -/
theorem run_pipeline_terminates_dispatches_once (sched : Nat → List String → String → Bool)
    (out : String → String) (conf : Config)
    (hn : (conf.dag.map DagEntry.name).Nodup)
    (hdeps : ∀ e ∈ conf.dag, ∀ d ∈ e.dependencies, d ∈ conf.dag.map DagEntry.name)
    (hacyc : Acyclic conf.dag)
    (hsched : ∀ (i : Nat) (r : List String), r ≠ [] → pollFinished sched i r ≠ []) :
    ∃ final, run_pipeline sched out (conf.dag.length + 1) conf = some final
      ∧ (dispatchedList final.trace).Perm (conf.dag.map DagEntry.name)
      ∧ ∀ n ∈ conf.dag.map DagEntry.name, (dispatchedList final.trace).count n = 1 := by
  obtain ⟨ord, hord⟩ := hacyc
  obtain ⟨final, hrun, hIf, hqf, hdisp⟩ :=
    run_pipeline_completes sched out conf ord hn hdeps hord hsched
  refine ⟨final, hrun, hdisp, fun n hmem => ?_⟩
  rw [hdisp.count_eq]
  exact List.count_eq_one_of_mem hn hmem

/-- Witness for C1 at the spec's three-step example DAG with an
everything-finishes-immediately schedule. -/
theorem run_pipeline_terminates_dispatches_once_witness :
    ∃ final, run_pipeline schedT outId 4 conf3 = some final
      ∧ (dispatchedList final.trace).Perm (conf3.dag.map DagEntry.name)
      ∧ ∀ n ∈ conf3.dag.map DagEntry.name, (dispatchedList final.trace).count n = 1 := by
  refine run_pipeline_terminates_dispatches_once schedT outId conf3 (by decide) (by decide)
    ⟨["A", "B", "C"], by decide, by decide⟩ ?_
  intro i r h
  have hall : pollFinished schedT i r = r := by
    simp [pollFinished, schedT]
  rw [hall]
  exact h

/-! ### C2 — dependents are admitted only after completion-processing -/

/-- C2: for steps A and B of the DAG where B declares A among its
dependencies, B is never dispatched before A's completion has been processed
by the scheduler: in every terminating run, every dispatch batch containing
B lies strictly after the `complete A` event — the atomic completion
processing that writes A's captured output to the scratch store and discards
A from every queued step's remaining-dependency set. -/
theorem run_pipeline_dependent_dispatched_after (sched : Nat → List String → String → Bool)
    (out : String → String) (fuel : Nat) (conf : Config) (final : SchedState)
    (hn : (conf.dag.map DagEntry.name).Nodup)
    (e : DagEntry) (A : String) (he : e ∈ conf.dag) (hA : A ∈ e.dependencies)
    (hrun : run_pipeline sched out fuel conf = some final)
    (j : Nat) (l : List String)
    (hj : final.trace[j]? = some (Event.dispatch l)) (hB : e.name ∈ l) :
    ∃ i, i < j ∧ final.trace[i]? = some (Event.complete A) := by
  have hIf := runLoop_some_inv hn fuel 0 _ final (init_inv hn) hrun
  have hd : A ∈ dagDeps conf.dag e.name := by
    rw [dagDeps_of_mem hn he]
    exact hA
  exact hIf.causal j l hj e.name hB A hd

/-- Witness for C2 on the two-step chain `{A: deps=[]}, {B: deps=[A]}`:
in the concrete run, B's dispatch is at trace position 2 and A's
completion-processing at position 1. -/
theorem run_pipeline_dependent_dispatched_after_witness :
    ∃ i, i < 2 ∧
      ([Event.dispatch ["A"], Event.complete "A", Event.dispatch ["B"], Event.complete "B"] :
        List Event)[i]? = some (Event.complete "A") := by
  refine run_pipeline_dependent_dispatched_after schedT outId 3 ⟨[], dag2⟩
    ⟨[], [], [("A", "A"), ("B", "B")],
      [Event.dispatch ["A"], Event.complete "A", Event.dispatch ["B"], Event.complete "B"]⟩
    (by decide) ⟨"B", "B", ["A"]⟩ "A" (by decide) (by decide) (by decide) 2 ["B"]
    (by decide) (by decide)

end Calx

namespace Calx

/-- The everything-finishes-immediately schedule satisfies the liveness
assumption on polling. -/
theorem schedT_always_finishes :
    ∀ (i : Nat) (r : List String), r ≠ [] → pollFinished schedT i r ≠ [] := by
  intro i r h
  have hall : pollFinished schedT i r = r := by
    simp [pollFinished, schedT]
  rw [hall]
  exact h

/-- Shape of every terminating run on the spec's example DAG
`{A: deps=[]}, {B: deps=[]}, {C: deps=[A,B]}`: the first dispatch pass
spawns exactly A and B together; C is dispatched only after both A's and
B's completions have been processed; and the final scratch store holds
exactly the three files A, B, C.  Proven by symbolic execution over all
possible polling outcomes. -/
theorem dag3_run_shape (sched : Nat → List String → String → Bool) (out : String → String)
    (final : SchedState)
    (hrun : run_pipeline sched out 4 conf3 = some final) :
    final.trace[0]? = some (Event.dispatch ["A", "B"]) ∧
    (∀ (j : Nat) (l : List String), final.trace[j]? = some (Event.dispatch l) → "C" ∈ l →
      (∃ i, i < j ∧ final.trace[i]? = some (Event.complete "A")) ∧
      (∃ i, i < j ∧ final.trace[i]? = some (Event.complete "B"))) ∧
    (final.store.map Prod.fst).Perm ["A", "B", "C"] := by
  unfold run_pipeline at hrun
  rw [show initState conf3.dag =
    ⟨[⟨"A", "A", []⟩, ⟨"B", "B", []⟩, ⟨"C", "C", ["A", "B"]⟩], [], [], []⟩ from by decide,
    show (4 : Nat) = 3 + 1 from rfl,
    runLoop_step_ne sched out 3 0 _ (by decide)] at hrun
  cases hA : sched 0 ["A", "B"] "A" with
  | false => cases hB : sched 0 ["A", "B"] "B" with
    | false =>
      simp [pollFinished, processOne, releaseDeps, storeWrite, dispatchPhase, eligibleNames,
        hA, hB] at hrun
    | true =>
      simp [pollFinished, processOne, releaseDeps, storeWrite, dispatchPhase, eligibleNames,
        hA, hB] at hrun
      rw [show (3 : Nat) = 2 + 1 from rfl,
        runLoop_step_ne sched out 2 1 _ (by simp)] at hrun
      cases hA1 : sched 1 ["A"] "A" with
      | false =>
        simp [pollFinished, processOne, releaseDeps, storeWrite, dispatchPhase, eligibleNames,
          hA1] at hrun
      | true =>
        simp [pollFinished, processOne, releaseDeps, storeWrite, dispatchPhase, eligibleNames,
          hA1] at hrun
        rw [show (2 : Nat) = 1 + 1 from rfl,
          runLoop_step_ne sched out 1 2 _ (by simp)] at hrun
        cases hC : sched 2 ["C"] "C" with
        | false =>
          simp [pollFinished, processOne, releaseDeps, storeWrite, dispatchPhase, eligibleNames,
            hC] at hrun
        | true =>
          simp [pollFinished, processOne, releaseDeps, storeWrite, dispatchPhase, eligibleNames,
            hC, runLoop] at hrun
          subst hrun
          refine ⟨rfl, ?_, ?_⟩
          · intro j l hj hc
            have hjlen : j < 6 := by
              by_contra hge
              rw [List.getElem?_eq_none (by simp; omega)] at hj
              cases hj
            interval_cases j
            · simp at hj
              subst hj
              simp at hc
            · simp at hj
            · simp at hj
              subst hj
              simp at hc
            · simp at hj
            · exact ⟨⟨3, by omega, rfl⟩, ⟨1, by omega, rfl⟩⟩
            · simp at hj
          · show (["B", "A", "C"] : List String).Perm ["A", "B", "C"]
            decide
  | true => cases hB : sched 0 ["A", "B"] "B" with
    | false =>
      simp [pollFinished, processOne, releaseDeps, storeWrite, dispatchPhase, eligibleNames,
        hA, hB] at hrun
      rw [show (3 : Nat) = 2 + 1 from rfl,
        runLoop_step_ne sched out 2 1 _ (by simp)] at hrun
      cases hB1 : sched 1 ["B"] "B" with
      | false =>
        simp [pollFinished, processOne, releaseDeps, storeWrite, dispatchPhase, eligibleNames,
          hB1] at hrun
      | true =>
        simp [pollFinished, processOne, releaseDeps, storeWrite, dispatchPhase, eligibleNames,
          hB1] at hrun
        rw [show (2 : Nat) = 1 + 1 from rfl,
          runLoop_step_ne sched out 1 2 _ (by simp)] at hrun
        cases hC : sched 2 ["C"] "C" with
        | false =>
          simp [pollFinished, processOne, releaseDeps, storeWrite, dispatchPhase, eligibleNames,
            hC] at hrun
        | true =>
          simp [pollFinished, processOne, releaseDeps, storeWrite, dispatchPhase, eligibleNames,
            hC, runLoop] at hrun
          subst hrun
          refine ⟨rfl, ?_, ?_⟩
          · intro j l hj hc
            have hjlen : j < 6 := by
              by_contra hge
              rw [List.getElem?_eq_none (by simp; omega)] at hj
              cases hj
            interval_cases j
            · simp at hj
              subst hj
              simp at hc
            · simp at hj
            · simp at hj
              subst hj
              simp at hc
            · simp at hj
            · exact ⟨⟨1, by omega, rfl⟩, ⟨3, by omega, rfl⟩⟩
            · simp at hj
          · show (["A", "B", "C"] : List String).Perm ["A", "B", "C"]
            exact List.Perm.refl _
    | true =>
      simp [pollFinished, processOne, releaseDeps, storeWrite, dispatchPhase, eligibleNames,
        hA, hB] at hrun
      rw [show (3 : Nat) = 2 + 1 from rfl,
        runLoop_step_ne sched out 2 1 _ (by simp)] at hrun
      cases hC : sched 1 ["C"] "C" with
      | false =>
        simp [pollFinished, processOne, releaseDeps, storeWrite, dispatchPhase, eligibleNames,
          hC] at hrun
      | true =>
        simp [pollFinished, processOne, releaseDeps, storeWrite, dispatchPhase, eligibleNames,
          hC, runLoop] at hrun
        subst hrun
        refine ⟨rfl, ?_, ?_⟩
        · intro j l hj hc
          have hjlen : j < 5 := by
            by_contra hge
            rw [List.getElem?_eq_none (by simp; omega)] at hj
            cases hj
          interval_cases j
          · simp at hj
            subst hj
            simp at hc
          · simp at hj
          · simp at hj
          · exact ⟨⟨1, by omega, rfl⟩, ⟨2, by omega, rfl⟩⟩
          · simp at hj
        · show (["A", "B", "C"] : List String).Perm ["A", "B", "C"]
          exact List.Perm.refl _

end Calx

namespace Calx

/-! ### C3 — batch admission and the three-step example -/

/-- C3: admission is a batch operation — in every dispatch pass, every queued
step whose remaining-dependency set is empty is spawned in that same pass
(its name is in the pass's dispatch list, collected before polling resumes).
In particular, on the DAG `{A: deps=[]}, {B: deps=[]}, {C: deps=[A,B]}` and
for every schedule on which runners eventually finish: A and B are dispatched
together in the first dispatch pass, C is dispatched only after both A's and
B's completions have been processed, and the final scratch store contains
exactly three entries keyed A, B, C. -/
theorem dispatch_batch_and_example (sched : Nat → List String → String → Bool)
    (out : String → String)
    (hsched : ∀ (i : Nat) (r : List String), r ≠ [] → pollFinished sched i r ≠ []) :
    (∀ (queued : List QEntry), ∀ q ∈ queued, q.dependencies = [] →
      q.name ∈ (dispatchPhase queued).1) ∧
    ∃ final, run_pipeline sched out 4 conf3 = some final ∧
      final.trace[0]? = some (Event.dispatch ["A", "B"]) ∧
      (∀ (j : Nat) (l : List String), final.trace[j]? = some (Event.dispatch l) → "C" ∈ l →
        (∃ i, i < j ∧ final.trace[i]? = some (Event.complete "A")) ∧
        (∃ i, i < j ∧ final.trace[i]? = some (Event.complete "B"))) ∧
      (final.store.map Prod.fst).Perm ["A", "B", "C"] := by
  refine ⟨fun queued q hq hdep => mem_eligibleNames.mpr ⟨q, hq, hdep, rfl⟩, ?_⟩
  obtain ⟨final, hrun, _, _, _⟩ :=
    run_pipeline_completes sched out conf3 ["A", "B", "C"] (by decide) (by decide)
      ⟨by decide, by decide⟩ hsched
  obtain ⟨h0, hcaus, hstore⟩ := dag3_run_shape sched out final hrun
  exact ⟨final, hrun, h0, hcaus, hstore⟩

/-- Witness for C3 at the everything-finishes-immediately schedule. -/
theorem dispatch_batch_and_example_witness :
    (∀ (queued : List QEntry), ∀ q ∈ queued, q.dependencies = [] →
      q.name ∈ (dispatchPhase queued).1) ∧
    ∃ final, run_pipeline schedT outId 4 conf3 = some final ∧
      final.trace[0]? = some (Event.dispatch ["A", "B"]) ∧
      (∀ (j : Nat) (l : List String), final.trace[j]? = some (Event.dispatch l) → "C" ∈ l →
        (∃ i, i < j ∧ final.trace[i]? = some (Event.complete "A")) ∧
        (∃ i, i < j ∧ final.trace[i]? = some (Event.complete "B"))) ∧
      (final.store.map Prod.fst).Perm ["A", "B", "C"] :=
  dispatch_batch_and_example schedT outId schedT_always_finishes

/-! ### C8 — failure policy -/

/-- Counterexample to C8: on the spec's best-effort example DAG
`{A: deps=[]} fails, {B: deps=[A]}, {C: deps=[]} succeeds`, the scheduler has
no policy input at all (neither `parse_arguments` nor `run_pipeline` carries
one), never consults a completion's success status, and dispatches B and
persists B's output even though B's dependency A is the failing step —
behaviour that matches neither fail-fast (B abandoned with the whole run)
nor best-effort (B reported permanently blocked). -/
theorem run_pipeline_no_policy_counterexample :
    ∃ final, run_pipeline schedT outId 4 ⟨[], dagF⟩ = some final ∧
      "B" ∈ dispatchedList final.trace ∧ "B" ∈ final.store.map Prod.fst := by
  refine ⟨⟨[], [], [("A", "A"), ("C", "C"), ("B", "B")],
    [Event.dispatch ["A", "C"], Event.complete "A", Event.complete "C",
     Event.dispatch ["B"], Event.complete "B"]⟩, by decide, by decide, by decide⟩

/-- C8, amended: the scheduler's behaviour on a non-success completion is not
a caller-selectable policy — the code exposes no fail-fast/best-effort choice
and never consults completion status; every finished run is processed
identically, so on the spec's best-effort example DAG every step is
dispatched (a permutation of A, B, C), including B, the dependent of the
failing step A, under every schedule on which runners eventually finish. -/
theorem run_pipeline_no_policy_amended (sched : Nat → List String → String → Bool)
    (out : String → String)
    (hsched : ∀ (i : Nat) (r : List String), r ≠ [] → pollFinished sched i r ≠ []) :
    ∃ final, run_pipeline sched out 4 ⟨[], dagF⟩ = some final ∧
      (dispatchedList final.trace).Perm ["A", "B", "C"] ∧
      "B" ∈ dispatchedList final.trace := by
  obtain ⟨final, hrun, _, _, hdisp⟩ :=
    run_pipeline_completes sched out ⟨[], dagF⟩ ["A", "C", "B"] (by decide) (by decide)
      ⟨by decide, by decide⟩ hsched
  have hperm : (dispatchedList final.trace).Perm ["A", "B", "C"] := by
    refine hdisp.trans ?_
    decide
  exact ⟨final, hrun, hperm, hperm.mem_iff.mpr (by decide)⟩

/-- Witness for the amended C8 at the everything-finishes-immediately
schedule. -/
theorem run_pipeline_no_policy_amended_witness :
    ∃ final, run_pipeline schedT outId 4 ⟨[], dagF⟩ = some final ∧
      (dispatchedList final.trace).Perm ["A", "B", "C"] ∧
      "B" ∈ dispatchedList final.trace :=
  run_pipeline_no_policy_amended schedT outId schedT_always_finishes

end Calx
